import Mathlib

/-!
# Verification of `LRUCache` (src/jinja2/utils.py)

A shallow embedding of the `LRUCache` class from `src/src/jinja2/utils.py`.
The cache keeps a key→value dict `_mapping` (modelled as an association
list with unique keys) and a recency deque `_queue` (modelled as a list,
front of the deque = head of the list, back = last element).

Python exceptions are modelled with `Except`; since the Python code can
mutate state before raising (e.g. `popleft` succeeding before a failing
dict deletion), every fallible mutating operation returns the cache state
both on success and inside the error, faithfully reflecting the partial
mutations of the source.
-/

namespace JinjaLRU

/-- Python exceptions that the `LRUCache` methods can raise. -/
inductive PyErr where
  | keyError
  | indexError
  | valueError
  deriving Repr, DecidableEq

/-- The state of an `LRUCache`:
`capacity` (`self.capacity`), `mapping` (`self._mapping`, a dict modelled
as an association list), `queue` (`self._queue`, a deque of keys, head =
front = least recently used). The `_wlock` field carries no data and is
modelled separately (see `LockEvent` below). -/
structure Cache (K V : Type) where
  capacity : Nat
  mapping : List (K × V)
  queue : List K
  deriving Repr, DecidableEq

set_option linter.unusedSectionVars false
set_option linter.unusedVariables false

variable {K V : Type} [DecidableEq K]

/-- Python dict lookup `d[key]` (as an option; the raising variant is in
the operations themselves): first binding for the key. -/
def dictLookup : List (K × V) → K → Option V
  | [], _ => none
  | (a, b) :: rest, k => if a = k then some b else dictLookup rest k

/-- Python dict assignment `d[key] = value`: replace in place when the key
is present, append a new binding otherwise. -/
def dictInsert : List (K × V) → K → V → List (K × V)
  | [], k, v => [(k, v)]
  | (a, b) :: rest, k, v =>
      if a = k then (a, v) :: rest else (a, b) :: dictInsert rest k v

/-- Python dict deletion `del d[key]` (minus the raise, handled at use
sites): remove the first binding for the key. -/
def dictErase : List (K × V) → K → List (K × V)
  | [], _ => []
  | (a, b) :: rest, k => if a = k then rest else (a, b) :: dictErase rest k

/-- `LRUCache.__init__(capacity)`: empty mapping and queue. -/
def init (capacity : Nat) : Cache K V :=
  ⟨capacity, [], []⟩

/-- `LRUCache.__contains__`: `key in self._mapping`. No lock is taken. -/
def contains (c : Cache K V) (k : K) : Bool :=
  (dictLookup c.mapping k).isSome

/-- `LRUCache.__len__`: `len(self._mapping)`. No lock is taken. -/
def size (c : Cache K V) : Nat :=
  c.mapping.length

/-- `LRUCache.__getitem__`: look the key up (raising `KeyError` when
absent), then, unless the key is already at the back of the queue
(`self._queue[-1] != key`, an `IndexError` on an empty deque), remove it
from the queue — swallowing the `ValueError` of a missing key — and
append it at the back. Returns the value and the new state. -/
def getitem (c : Cache K V) (k : K) : Except (PyErr × Cache K V) (V × Cache K V) :=
  match dictLookup c.mapping k with
  | none => .error (.keyError, c)
  | some v =>
    match c.queue.getLast? with
    | none => .error (.indexError, c)
    | some last =>
      if last = k then .ok (v, c)
      else .ok (v, { c with queue := c.queue.erase k ++ [k] })

/-- `LRUCache.__setitem__`: if the key is present, `self._remove(key)`
(an uncaught `ValueError` when the key is missing from the queue);
otherwise, if the dict is at capacity, `del self._mapping[self._popleft()]`
(`IndexError` on an empty deque; a `KeyError` from the dict deletion would
leave the queue already popped). Finally append the key and store the
value. -/
def setitem (c : Cache K V) (k : K) (v : V) : Except (PyErr × Cache K V) (Cache K V) :=
  if (dictLookup c.mapping k).isSome then
    if k ∈ c.queue then
      .ok { c with mapping := dictInsert c.mapping k v, queue := c.queue.erase k ++ [k] }
    else .error (.valueError, c)
  else if c.mapping.length = c.capacity then
    match c.queue with
    | [] => .error (.indexError, c)
    | old :: rest =>
      if (dictLookup c.mapping old).isSome then
        .ok { c with mapping := dictInsert (dictErase c.mapping old) k v,
                     queue := rest ++ [k] }
      else .error (.keyError, { c with queue := rest })
  else
    .ok { c with mapping := dictInsert c.mapping k v, queue := c.queue ++ [k] }

/-- `LRUCache.__delitem__`: `del self._mapping[key]` (raising `KeyError`
when absent), then remove the key from the queue, swallowing the
`ValueError` of a key not in the queue. -/
def delitem (c : Cache K V) (k : K) : Except (PyErr × Cache K V) (Cache K V) :=
  if (dictLookup c.mapping k).isSome then
    .ok { c with mapping := dictErase c.mapping k, queue := c.queue.erase k }
  else .error (.keyError, c)

/-- `LRUCache.get(key, default)`: `self[key]`, returning `default` on
`KeyError`. Any other exception (the `IndexError` of `__getitem__` on an
inconsistent state) propagates. -/
def get (c : Cache K V) (k : K) (default : V) : Except (PyErr × Cache K V) (V × Cache K V) :=
  match getitem c k with
  | .ok r => .ok r
  | .error (.keyError, c') => .ok (default, c')
  | .error e => .error e

/-- `LRUCache.setdefault(key, default)`: `self[key]`, and on `KeyError`
perform `self[key] = default` and return `default`. -/
def setdefault (c : Cache K V) (k : K) (default : V) :
    Except (PyErr × Cache K V) (V × Cache K V) :=
  match getitem c k with
  | .ok r => .ok r
  | .error (.keyError, c') =>
    match setitem c' k default with
    | .ok c'' => .ok (default, c'')
    | .error e => .error e
  | .error e => .error e

/-- `LRUCache.clear`: empty both the mapping and the queue. -/
def clear (c : Cache K V) : Cache K V :=
  { c with mapping := [], queue := [] }

/-- `LRUCache.items`: `[(key, self._mapping[key]) for key in list(self._queue)]`
reversed; the dict access raises `KeyError` for a queue key missing from
the mapping. -/
def items (c : Cache K V) : Except PyErr (List (K × V)) :=
  match c.queue.mapM (fun k => (dictLookup c.mapping k).map (fun v => (k, v))) with
  | some l => .ok l.reverse
  | none => .error .keyError

/-- `LRUCache.values`: second components of `items()`. -/
def valuesList (c : Cache K V) : Except PyErr (List V) :=
  match items c with
  | .ok l => .ok (l.map Prod.snd)
  | .error e => .error e

/-- `LRUCache.__iter__`: `reversed(tuple(self._queue))`. -/
def iterList (c : Cache K V) : List K :=
  c.queue.reverse

/-- `LRUCache.keys`: `list(self)`, i.e. the default iteration order. -/
def keysList (c : Cache K V) : List K :=
  iterList c

/-- `LRUCache.__reversed__`: `iter(tuple(self._queue))`, raw queue order. -/
def reversedList (c : Cache K V) : List K :=
  c.queue

/-- `LRUCache.copy`: a fresh instance with the same capacity whose fresh
dict is `update`d from the original's mapping and whose fresh deque is
`extend`ed with the original's queue. -/
def copy (c : Cache K V) : Cache K V :=
  ⟨c.capacity, c.mapping, c.queue⟩

/-- The persisted form built by `LRUCache.__getstate__`: exactly the
`capacity`, `_mapping` and `_queue` fields — the lock is not part of it. -/
structure PickleState (K V : Type) where
  capacity : Nat
  mapping : List (K × V)
  queue : List K
  deriving Repr, DecidableEq

/-- `LRUCache.__getstate__`: the dict `{"capacity": ..., "_mapping": ...,
"_queue": ...}`. -/
def getstate (c : Cache K V) : PickleState K V :=
  ⟨c.capacity, c.mapping, c.queue⟩

/-- `LRUCache.__setstate__`: `self.__dict__.update(d)` followed by
`self._postinit()`, which rebuilds the method aliases and a fresh `Lock`. -/
def setstate (d : PickleState K V) : Cache K V :=
  ⟨d.capacity, d.mapping, d.queue⟩

/-- Lock acquire/release events, for transcribing which methods take
`self._wlock`. -/
inductive LockEvent where
  | acquire
  | release
  deriving Repr, DecidableEq

/-- `__getitem__` wraps its whole body in `acquire` / `finally: release`. -/
def getitemLock : List LockEvent := [.acquire, .release]

/-- `__setitem__` wraps its whole body in `acquire` / `finally: release`. -/
def setitemLock : List LockEvent := [.acquire, .release]

/-- `__delitem__` wraps its whole body in `acquire` / `finally: release`. -/
def delitemLock : List LockEvent := [.acquire, .release]

/-- `clear` wraps its body in `acquire` / `finally: release`. -/
def clearLock : List LockEvent := [.acquire, .release]

/-- `get` only calls `self[key]`, so its lock behaviour is `__getitem__`'s. -/
def getLock : List LockEvent := getitemLock

/-- `setdefault` calls `self[key]` and, on `KeyError`, `self[key] = default`:
one guarded section when the key is present, two separate ones otherwise. -/
def setdefaultLock (keyPresent : Bool) : List LockEvent :=
  if keyPresent then getitemLock else getitemLock ++ setitemLock

/-- `__contains__` reads `self._mapping` without touching the lock. -/
def containsLock : List LockEvent := []

/-- `__len__` reads `len(self._mapping)` without touching the lock. -/
def sizeLock : List LockEvent := []

/-- `items` reads `self._queue` and `self._mapping` without touching the
lock. -/
def itemsLock : List LockEvent := []

/-- `__iter__` reads `self._queue` without touching the lock. -/
def iterLock : List LockEvent := []

/-- `__reversed__` reads `self._queue` without touching the lock. -/
def reversedLock : List LockEvent := []

/-- `__getstate__` reads the three fields without touching the lock. -/
def getstateLock : List LockEvent := []

/-- `copy` reads `self._mapping` and `self._queue` without touching the
source's lock. -/
def copyLock : List LockEvent := []

/-- The guard is held for the full duration of a call exactly when the
call's lock trace is a single acquire/release bracket around the body. -/
def heldFullDuration (t : List LockEvent) : Bool :=
  t = [.acquire, .release]

/-- The cache invariant: the dict has unique keys, the queue has no
duplicates, the key set of the dict equals the key set of the queue, and
the dict is never over capacity. -/
def Inv (c : Cache K V) : Prop :=
  (c.mapping.map Prod.fst).Nodup ∧ c.queue.Nodup ∧
    (∀ k, k ∈ c.mapping.map Prod.fst ↔ k ∈ c.queue) ∧
    c.mapping.length ≤ c.capacity

/-- The operations a client can perform on a cache, for stating properties
of arbitrary operation sequences. -/
inductive Op (K V : Type) where
  | getOp (k : K)
  | getD (k : K) (d : V)
  | setdefaultOp (k : K) (d : V)
  | setOp (k : K) (v : V)
  | delOp (k : K)
  | clearOp
  | copyOp
  | itemsOp
  | iterOp

/-- The cache state after an operation completes, normally or with an
exception (the state inside the error is the state at the raise point). -/
def applyOp (c : Cache K V) : Op K V → Cache K V
  | .getOp k =>
    match getitem c k with
    | .ok (_, c') => c'
    | .error (_, c') => c'
  | .getD k d =>
    match get c k d with
    | .ok (_, c') => c'
    | .error (_, c') => c'
  | .setdefaultOp k d =>
    match setdefault c k d with
    | .ok (_, c') => c'
    | .error (_, c') => c'
  | .setOp k v =>
    match setitem c k v with
    | .ok c' => c'
    | .error (_, c') => c'
  | .delOp k =>
    match delitem c k with
    | .ok c' => c'
    | .error (_, c') => c'
  | .clearOp => clear c
  | .copyOp => c
  | .itemsOp => c
  | .iterOp => c

/-- The cache state after a whole sequence of operations. -/
def applySeq (c : Cache K V) (ops : List (Op K V)) : Cache K V :=
  ops.foldl applyOp c

/-- A step in a two-instance world (an original cache and its `copy`):
the flag selects which instance the operation is applied to. The two
instances share no structure — `copy` fills a fresh dict via
`dict.update` and a fresh deque via `deque.extend` — so an operation on
one leaves the other untouched. -/
def applyWorldStep (w : Cache K V × Cache K V) (a : Bool × Op K V) :
    Cache K V × Cache K V :=
  if a.1 then (applyOp w.1 a.2, w.2) else (w.1, applyOp w.2 a.2)

/-- Run a sequence of instance-tagged operations on the two-instance
world. -/
def applyWorld (w : Cache K V × Cache K V) (ops : List (Bool × Op K V)) :
    Cache K V × Cache K V :=
  ops.foldl applyWorldStep w

/-- The operations of a tagged sequence addressed to the instance tagged
`b`, in order. -/
def opsFor (b : Bool) (ops : List (Bool × Op K V)) : List (Op K V) :=
  (ops.filter (fun a => a.1 == b)).map Prod.snd

/-- A cache together with the identity of its `_wlock`: `_postinit`
allocates a fresh `Lock()`, modelled as a lock identifier distinct from
every lock already alive. -/
structure CacheWithLock (K V : Type) where
  data : Cache K V
  lockId : Nat

/-- `__getstate__` on a live instance: only the three data fields are
persisted, the lock identity is dropped. -/
def getstateL (c : CacheWithLock K V) : PickleState K V :=
  getstate c.data

/-- `__setstate__` on a reconstructed instance: the data fields are
restored and `_postinit` installs a freshly allocated lock. -/
def setstateL (d : PickleState K V) (freshLock : Nat) : CacheWithLock K V :=
  ⟨setstate d, freshLock⟩

theorem inv_init (capacity : Nat) : Inv (init capacity : Cache K V) := by
  refine ⟨List.nodup_nil, List.nodup_nil, fun k => ?_, Nat.zero_le _⟩
  simp [init]

theorem dictLookup_eq_none (m : List (K × V)) (k : K) :
    dictLookup m k = none ↔ k ∉ m.map Prod.fst := by
  induction m with
  | nil => simp [dictLookup]
  | cons p rest ih =>
    obtain ⟨a, b⟩ := p
    by_cases h : a = k
    · subst h
      simp [dictLookup]
    · simp [dictLookup, h, ih, Ne.symm h]

theorem dictLookup_isSome (m : List (K × V)) (k : K) :
    (dictLookup m k).isSome = true ↔ k ∈ m.map Prod.fst := by
  induction m with
  | nil => simp [dictLookup]
  | cons p rest ih =>
    obtain ⟨a, b⟩ := p
    by_cases h : a = k
    · subst h
      simp [dictLookup]
    · simp [dictLookup, h, ih, Ne.symm h]

theorem dictLookup_mem (m : List (K × V)) (k : K) (v : V)
    (h : dictLookup m k = some v) : (k, v) ∈ m := by
  induction m with
  | nil => simp [dictLookup] at h
  | cons p rest ih =>
    obtain ⟨a, b⟩ := p
    by_cases hak : a = k
    · subst hak
      simp [dictLookup] at h
      simp [h]
    · simp [dictLookup, hak] at h
      exact List.mem_cons_of_mem _ (ih h)

theorem map_fst_dictInsert_of_mem (m : List (K × V)) (k : K) (v : V)
    (h : k ∈ m.map Prod.fst) :
    (dictInsert m k v).map Prod.fst = m.map Prod.fst := by
  induction m with
  | nil => simp at h
  | cons p rest ih =>
    obtain ⟨a, b⟩ := p
    by_cases hak : a = k
    · subst hak
      simp [dictInsert]
    · rw [List.map_cons, List.mem_cons] at h
      rcases h with h | h
      · exact absurd h.symm hak
      · simp [dictInsert, hak, ih h]

theorem dictInsert_of_not_mem (m : List (K × V)) (k : K) (v : V)
    (h : k ∉ m.map Prod.fst) :
    dictInsert m k v = m ++ [(k, v)] := by
  induction m with
  | nil => simp [dictInsert]
  | cons p rest ih =>
    obtain ⟨a, b⟩ := p
    rw [List.map_cons, List.mem_cons] at h
    push_neg at h
    simp [dictInsert, Ne.symm h.1, ih h.2]

theorem map_fst_dictErase (m : List (K × V)) (k : K) :
    (dictErase m k).map Prod.fst = (m.map Prod.fst).erase k := by
  induction m with
  | nil => simp [dictErase]
  | cons p rest ih =>
    obtain ⟨a, b⟩ := p
    by_cases hak : a = k
    · subst hak
      simp [dictErase, List.erase_cons]
    · simp [dictErase, hak, List.erase_cons, ih]

theorem dictLookup_dictInsert_self (m : List (K × V)) (k : K) (v : V) :
    dictLookup (dictInsert m k v) k = some v := by
  induction m with
  | nil => simp [dictInsert, dictLookup]
  | cons p rest ih =>
    obtain ⟨a, b⟩ := p
    by_cases hak : a = k
    · subst hak
      simp [dictInsert, dictLookup]
    · simp [dictInsert, dictLookup, hak, ih]

theorem dictLookup_dictInsert_ne (m : List (K × V)) (k a : K) (v : V)
    (h : a ≠ k) : dictLookup (dictInsert m k v) a = dictLookup m a := by
  induction m with
  | nil => simp [dictInsert, dictLookup, Ne.symm h]
  | cons p rest ih =>
    obtain ⟨x, y⟩ := p
    by_cases hxk : x = k
    · subst hxk
      simp [dictInsert, dictLookup, Ne.symm h]
    · by_cases hxa : x = a
      · subst hxa
        simp [dictInsert, dictLookup, hxk]
      · simp [dictInsert, dictLookup, hxk, hxa, ih]

theorem dictLookup_dictErase_self (m : List (K × V)) (k : K)
    (h : (m.map Prod.fst).Nodup) : dictLookup (dictErase m k) k = none := by
  induction m with
  | nil => simp [dictErase, dictLookup]
  | cons p rest ih =>
    obtain ⟨a, b⟩ := p
    simp at h
    by_cases hak : a = k
    · subst hak
      rw [dictLookup_eq_none]
      simpa [dictErase] using h.1
    · simp [dictErase, dictLookup, hak, ih h.2]

theorem dictLookup_dictErase_ne (m : List (K × V)) (k a : K) (h : a ≠ k) :
    dictLookup (dictErase m k) a = dictLookup m a := by
  induction m with
  | nil => simp [dictErase]
  | cons p rest ih =>
    obtain ⟨x, y⟩ := p
    by_cases hxk : x = k
    · subst hxk
      simp [dictErase, dictLookup, Ne.symm h]
    · by_cases hxa : x = a
      · subst hxa
        simp [dictErase, dictLookup, hxk]
      · simp [dictErase, dictLookup, hxk, hxa, ih]

theorem length_map_fst (m : List (K × V)) : (m.map Prod.fst).length = m.length :=
  List.length_map m Prod.fst

theorem nodup_erase_append (q : List K) (k : K) (h : q.Nodup) :
    (q.erase k ++ [k]).Nodup := by
  have h1 : (q.erase k).Nodup := h.erase k
  have h2 : k ∉ q.erase k := fun hk => ((h.mem_erase_iff).1 hk).1 rfl
  simp [List.nodup_append, h1, h2]

theorem mem_erase_append (q : List K) (k x : K) (hq : q.Nodup) :
    x ∈ q.erase k ++ [k] ↔ x ∈ q ∨ x = k := by
  rw [List.mem_append, hq.mem_erase_iff]
  by_cases hxk : x = k
  · simp [hxk]
  · simp [hxk]

theorem inv_queue_length (c : Cache K V) (hInv : Inv c) :
    c.queue.length = c.mapping.length := by
  have hperm : List.Perm (c.mapping.map Prod.fst) c.queue :=
    List.perm_of_nodup_nodup_toFinset_eq hInv.1 hInv.2.1 (by
      ext a
      simp only [List.mem_toFinset]
      exact hInv.2.2.1 a)
  rw [← hperm.length_eq, length_map_fst]

theorem inv_promote (c : Cache K V) (k : K) (hInv : Inv c) (hk : k ∈ c.queue) :
    Inv { c with queue := c.queue.erase k ++ [k] } := by
  obtain ⟨hm, hq, hs, hc⟩ := hInv
  refine ⟨hm, nodup_erase_append _ _ hq, fun x => ?_, hc⟩
  rw [mem_erase_append _ _ _ hq]
  constructor
  · intro hx
    exact Or.inl ((hs x).1 hx)
  · rintro (hx | rfl)
    · exact (hs x).2 hx
    · exact (hs x).2 hk

theorem getitem_absent (c : Cache K V) (k : K)
    (h : dictLookup c.mapping k = none) :
    getitem c k = .error (.keyError, c) := by
  simp [getitem, h]

theorem getitem_present (c : Cache K V) (k : K) (v : V) (hInv : Inv c)
    (h : dictLookup c.mapping k = some v) :
    (c.queue.getLast? = some k → getitem c k = .ok (v, c)) ∧
    (c.queue.getLast? ≠ some k →
      getitem c k = .ok (v, { c with queue := c.queue.erase k ++ [k] })) := by
  have hkq : k ∈ c.queue := by
    refine (hInv.2.2.1 k).1 ?_
    rw [← dictLookup_isSome c.mapping k, h]
    rfl
  have hne : c.queue ≠ [] := List.ne_nil_of_mem hkq
  obtain ⟨last, hlast⟩ :=
    Option.isSome_iff_exists.1 (List.getLast?_isSome.2 hne)
  constructor
  · intro hl
    simp [getitem, h, hl]
  · intro hl
    rw [hlast] at hl
    have : last ≠ k := fun hlk => hl (by rw [hlk])
    simp [getitem, h, hlast, this]

theorem inv_getitem (c : Cache K V) (k : K) (hInv : Inv c) :
    (∀ e c', getitem c k = .error (e, c') → c' = c) ∧
    (∀ v c', getitem c k = .ok (v, c') →
      Inv c' ∧ c'.capacity = c.capacity ∧ c'.mapping = c.mapping) := by
  constructor
  · intro e c' hec
    unfold getitem at hec
    cases hm : dictLookup c.mapping k with
    | none => rw [hm] at hec; simp at hec; exact hec.2.symm
    | some v =>
      rw [hm] at hec
      cases hl : c.queue.getLast? with
      | none => rw [hl] at hec; simp at hec; exact hec.2.symm
      | some last =>
        rw [hl] at hec
        by_cases hlk : last = k <;> simp [hlk] at hec
  · intro v c' hok
    unfold getitem at hok
    cases hm : dictLookup c.mapping k with
    | none => rw [hm] at hok; simp at hok
    | some v0 =>
      rw [hm] at hok
      cases hl : c.queue.getLast? with
      | none => rw [hl] at hok; simp at hok
      | some last =>
        rw [hl] at hok
        have hkq : k ∈ c.queue := by
          refine (hInv.2.2.1 k).1 ?_
          rw [← dictLookup_isSome c.mapping k, hm]
          rfl
        by_cases hlk : last = k
        · simp [hlk] at hok
          rw [← hok.2]
          exact ⟨hInv, rfl, rfl⟩
        · simp [hlk] at hok
          rw [← hok.2]
          exact ⟨inv_promote c k hInv hkq, rfl, rfl⟩

theorem setitem_present (c : Cache K V) (k : K) (v v0 : V) (hInv : Inv c)
    (h : dictLookup c.mapping k = some v0) :
    setitem c k v =
      .ok { c with mapping := dictInsert c.mapping k v,
                   queue := c.queue.erase k ++ [k] } := by
  have hkeys : k ∈ c.mapping.map Prod.fst := by
    rw [← dictLookup_isSome c.mapping k, h]
    rfl
  have hkq : k ∈ c.queue := (hInv.2.2.1 k).1 hkeys
  simp [setitem, h, hkq]

theorem setitem_absent_notfull (c : Cache K V) (k : K) (v : V)
    (h : dictLookup c.mapping k = none) (hlt : c.mapping.length ≠ c.capacity) :
    setitem c k v =
      .ok { c with mapping := c.mapping ++ [(k, v)], queue := c.queue ++ [k] } := by
  have hno : k ∉ c.mapping.map Prod.fst := (dictLookup_eq_none c.mapping k).1 h
  simp [setitem, h, hlt, dictInsert_of_not_mem c.mapping k v hno]

theorem setitem_absent_full (c : Cache K V) (k : K) (v : V) (hInv : Inv c)
    (h : dictLookup c.mapping k = none) (hfull : c.mapping.length = c.capacity)
    (hpos : 0 < c.capacity) :
    ∃ front rest, c.queue = front :: rest ∧
      setitem c k v =
        .ok { c with mapping := dictInsert (dictErase c.mapping front) k v,
                     queue := rest ++ [k] } := by
  have hqlen : c.queue.length = c.mapping.length := inv_queue_length c hInv
  have hqpos : 0 < c.queue.length := by omega
  cases hqc : c.queue with
  | nil => rw [hqc] at hqpos; simp at hqpos
  | cons front rest =>
    refine ⟨front, rest, rfl, ?_⟩
    have hfrontq : front ∈ c.queue := by rw [hqc]; exact List.mem_cons_self front rest
    have hfrontm : front ∈ c.mapping.map Prod.fst := (hInv.2.2.1 front).2 hfrontq
    have hfront : (dictLookup c.mapping front).isSome = true :=
      (dictLookup_isSome c.mapping front).2 hfrontm
    simp [setitem, h, hfull, hqc, hfront]

theorem setitem_capacity_zero (c : Cache K V) (k : K) (v : V) (hInv : Inv c)
    (hcap : c.capacity = 0) :
    setitem c k v = .error (.indexError, c) ∧ c.mapping = [] ∧ c.queue = [] := by
  have hmnil : c.mapping = [] := by
    have := hInv.2.2.2
    rw [hcap] at this
    exact List.eq_nil_of_length_eq_zero (Nat.le_zero.1 this)
  have hqnil : c.queue = [] := by
    have hqlen : c.queue.length = c.mapping.length := inv_queue_length c hInv
    rw [hmnil] at hqlen
    exact List.eq_nil_of_length_eq_zero hqlen
  refine ⟨?_, hmnil, hqnil⟩
  simp [setitem, hmnil, hqnil, dictLookup, hcap]

theorem inv_setitem (c : Cache K V) (k : K) (v : V) (hInv : Inv c) :
    (∀ e c', setitem c k v = .error (e, c') →
      Inv c' ∧ c'.capacity = c.capacity) ∧
    (∀ c', setitem c k v = .ok c' → Inv c' ∧ c'.capacity = c.capacity) := by
  obtain ⟨hm, hq, hs, hc⟩ := hInv
  constructor
  · intro e c' hec
    unfold setitem at hec
    by_cases hk : (dictLookup c.mapping k).isSome
    · rw [if_pos hk] at hec
      by_cases hkq : k ∈ c.queue <;> simp [hkq] at hec
      obtain ⟨he1, he2⟩ := hec
      subst he2
      exact ⟨⟨hm, hq, hs, hc⟩, rfl⟩
    · rw [if_neg hk] at hec
      by_cases hfull : c.mapping.length = c.capacity
      · rw [if_pos hfull] at hec
        cases hqc : c.queue with
        | nil =>
          rw [hqc] at hec
          simp at hec
          obtain ⟨he1, he2⟩ := hec
          subst he2
          exact ⟨⟨hm, hq, hs, hc⟩, rfl⟩
        | cons front rest =>
          rw [hqc] at hec
          have hfrontq : front ∈ c.queue := by
            rw [hqc]; exact List.mem_cons_self front rest
          have hfront : (dictLookup c.mapping front).isSome = true :=
            (dictLookup_isSome c.mapping front).2 ((hs front).2 hfrontq)
          simp [hfront] at hec
      · rw [if_neg hfull] at hec
        simp at hec
  · intro c' hok
    unfold setitem at hok
    by_cases hk : (dictLookup c.mapping k).isSome
    · rw [if_pos hk] at hok
      have hkq : k ∈ c.queue :=
        (hs k).1 ((dictLookup_isSome c.mapping k).1 hk)
      simp [hkq] at hok
      subst hok
      have hkeys : k ∈ c.mapping.map Prod.fst := (dictLookup_isSome c.mapping k).1 hk
      refine ⟨⟨?_, nodup_erase_append _ _ hq, fun x => ?_, ?_⟩, rfl⟩
      · rw [map_fst_dictInsert_of_mem c.mapping k v hkeys]
        exact hm
      · rw [map_fst_dictInsert_of_mem c.mapping k v hkeys,
          mem_erase_append _ _ _ hq]
        constructor
        · intro hx
          exact Or.inl ((hs x).1 hx)
        · rintro (hx | rfl)
          · exact (hs x).2 hx
          · exact hkeys
      · have : (dictInsert c.mapping k v).length = c.mapping.length := by
          rw [← length_map_fst, map_fst_dictInsert_of_mem c.mapping k v hkeys,
            length_map_fst]
        simpa [this] using hc
    · rw [if_neg hk] at hok
      have hkeys : k ∉ c.mapping.map Prod.fst := fun hmem =>
        hk ((dictLookup_isSome c.mapping k).2 hmem)
      have hknq : k ∉ c.queue := fun hkq => hkeys ((hs k).2 hkq)
      by_cases hfull : c.mapping.length = c.capacity
      · rw [if_pos hfull] at hok
        cases hqc : c.queue with
        | nil => rw [hqc] at hok; simp at hok
        | cons front rest =>
          rw [hqc] at hok
          have hfrontq : front ∈ c.queue := by
            rw [hqc]; exact List.mem_cons_self front rest
          have hfront : (dictLookup c.mapping front).isSome = true :=
            (dictLookup_isSome c.mapping front).2 ((hs front).2 hfrontq)
          simp [hfront] at hok
          subst hok
          have hkerase : k ∉ (c.mapping.map Prod.fst).erase front :=
            fun hmem => hkeys (List.mem_of_mem_erase hmem)
          have hmap : (dictInsert (dictErase c.mapping front) k v).map Prod.fst =
              (c.mapping.map Prod.fst).erase front ++ [k] := by
            rw [dictInsert_of_not_mem _ k v (by rw [map_fst_dictErase]; exact hkerase)]
            rw [List.map_append, map_fst_dictErase]
            rfl
          have hqrest : rest.Nodup := by
            rw [hqc] at hq
            exact hq.of_cons
          have hfrest : front ∉ rest := by
            rw [hqc, List.nodup_cons] at hq
            exact hq.1
          have hkrest : k ∉ rest := fun hkr => hknq (by rw [hqc]; exact List.mem_cons_of_mem _ hkr)
          refine ⟨⟨?_, ?_, fun x => ?_, ?_⟩, rfl⟩
          · rw [hmap]
            refine List.Nodup.append ((hm.erase front)) (List.nodup_singleton k) ?_
            intro a ha hb
            rw [List.mem_singleton] at hb
            subst hb
            exact hkerase ha
          · refine List.Nodup.append hqrest (List.nodup_singleton k) ?_
            intro a ha hb
            rw [List.mem_singleton] at hb
            subst hb
            exact hkrest ha
          · rw [hmap]
            rw [List.mem_append, List.mem_append, hm.mem_erase_iff]
            constructor
            · rintro (⟨hxf, hx⟩ | hx)
              · have hxq : x ∈ c.queue := (hs x).1 hx
                rw [hqc, List.mem_cons] at hxq
                rcases hxq with rfl | hxq
                · exact absurd rfl hxf
                · exact Or.inl hxq
              · exact Or.inr hx
            · rintro (hx | hx)
              · have hxq : x ∈ c.queue := by rw [hqc]; exact List.mem_cons_of_mem _ hx
                have hxm : x ∈ c.mapping.map Prod.fst := (hs x).2 hxq
                have hxf : x ≠ front := fun hxf => hfrest (hxf ▸ hx)
                exact Or.inl ⟨hxf, hxm⟩
              · exact Or.inr hx
          · have hpos : 0 < (c.mapping.map Prod.fst).length :=
              List.length_pos_of_mem ((hs front).2 hfrontq)
            have hlen : (dictInsert (dictErase c.mapping front) k v).length =
                c.mapping.length := by
              rw [← length_map_fst, hmap, List.length_append,
                List.length_erase_of_mem ((hs front).2 hfrontq), length_map_fst] at *
              simp only [List.length_singleton]
              omega
            rw [hlen, hfull]
      · rw [if_neg hfull] at hok
        simp at hok
        subst hok
        have hmap : (dictInsert c.mapping k v).map Prod.fst =
            c.mapping.map Prod.fst ++ [k] := by
          rw [dictInsert_of_not_mem _ k v hkeys, List.map_append]
          rfl
        refine ⟨⟨?_, ?_, fun x => ?_, ?_⟩, rfl⟩
        · rw [hmap]
          refine List.Nodup.append hm (List.nodup_singleton k) ?_
          intro a ha hb
          rw [List.mem_singleton] at hb
          subst hb
          exact hkeys ha
        · refine List.Nodup.append hq (List.nodup_singleton k) ?_
          intro a ha hb
          rw [List.mem_singleton] at hb
          subst hb
          exact hknq ha
        · rw [hmap, List.mem_append, List.mem_append]
          constructor
          · rintro (hx | hx)
            · exact Or.inl ((hs x).1 hx)
            · exact Or.inr hx
          · rintro (hx | hx)
            · exact Or.inl ((hs x).2 hx)
            · exact Or.inr hx
        · have hlen : (dictInsert c.mapping k v).length = c.mapping.length + 1 := by
            rw [← length_map_fst, hmap, List.length_append, length_map_fst]
            rfl
          have : c.mapping.length < c.capacity := Nat.lt_of_le_of_ne hc hfull
          simpa [hlen] using this

theorem delitem_absent (c : Cache K V) (k : K)
    (h : dictLookup c.mapping k = none) :
    delitem c k = .error (.keyError, c) := by
  simp [delitem, h]

theorem delitem_present (c : Cache K V) (k : K) (v : V)
    (h : dictLookup c.mapping k = some v) :
    delitem c k =
      .ok { c with mapping := dictErase c.mapping k, queue := c.queue.erase k } := by
  simp [delitem, h]

theorem inv_delitem (c : Cache K V) (k : K) (hInv : Inv c) :
    (∀ e c', delitem c k = .error (e, c') → c' = c) ∧
    (∀ c', delitem c k = .ok c' → Inv c' ∧ c'.capacity = c.capacity) := by
  obtain ⟨hm, hq, hs, hc⟩ := hInv
  constructor
  · intro e c' hec
    unfold delitem at hec
    by_cases hk : (dictLookup c.mapping k).isSome <;> simp [hk] at hec
    exact hec.2.symm
  · intro c' hok
    unfold delitem at hok
    by_cases hk : (dictLookup c.mapping k).isSome <;> simp [hk] at hok
    subst hok
    refine ⟨⟨?_, hq.erase k, fun x => ?_, ?_⟩, rfl⟩
    · rw [map_fst_dictErase]
      exact hm.erase k
    · rw [map_fst_dictErase, hm.mem_erase_iff, hq.mem_erase_iff]
      constructor
      · rintro ⟨hxk, hx⟩
        exact ⟨hxk, (hs x).1 hx⟩
      · rintro ⟨hxk, hx⟩
        exact ⟨hxk, (hs x).2 hx⟩
    · show (dictErase c.mapping k).length ≤ c.capacity
      have : (dictErase c.mapping k).length ≤ c.mapping.length := by
        rw [← length_map_fst, map_fst_dictErase, ← length_map_fst c.mapping]
        exact List.length_erase_le k (c.mapping.map Prod.fst)
      omega

theorem inv_clear (c : Cache K V) : Inv (clear c) := by
  refine ⟨List.nodup_nil, List.nodup_nil, fun k => ?_, Nat.zero_le _⟩
  simp [clear]

theorem inv_setdefault (c : Cache K V) (k : K) (d : V) (hInv : Inv c) :
    (∀ e c', setdefault c k d = .error (e, c') →
      Inv c' ∧ c'.capacity = c.capacity) ∧
    (∀ v c', setdefault c k d = .ok (v, c') → Inv c' ∧ c'.capacity = c.capacity) := by
  constructor
  · intro e c' hec
    unfold setdefault at hec
    cases hg : getitem c k with
    | ok r =>
      rw [hg] at hec
      simp at hec
    | error p =>
      obtain ⟨eg, cg⟩ := p
      rw [hg] at hec
      have hcg : cg = c := (inv_getitem c k hInv).1 eg cg hg
      subst cg
      cases eg with
      | keyError =>
        simp at hec
        cases hset : setitem c k d with
        | ok c'' => rw [hset] at hec; simp at hec
        | error p' =>
          obtain ⟨es, cs⟩ := p'
          rw [hset] at hec
          simp at hec
          obtain ⟨he1, he2⟩ := hec
          subst he2
          exact (inv_setitem c k d hInv).1 es cs hset
      | indexError =>
        simp at hec
        obtain ⟨he1, he2⟩ := hec
        subst he2
        exact ⟨hInv, rfl⟩
      | valueError =>
        simp at hec
        obtain ⟨he1, he2⟩ := hec
        subst he2
        exact ⟨hInv, rfl⟩
  · intro v c' hok
    unfold setdefault at hok
    cases hg : getitem c k with
    | ok r =>
      obtain ⟨vg, cg⟩ := r
      rw [hg] at hok
      simp at hok
      obtain ⟨hInv', _, hcap⟩ := (inv_getitem c k hInv).2 vg cg hg
      have hcap' : cg.capacity = c.capacity := by
        obtain ⟨_, h2, _⟩ := (inv_getitem c k hInv).2 vg cg hg
        exact h2
      exact hok.2 ▸ ⟨hInv', hcap'⟩
    | error p =>
      obtain ⟨eg, cg⟩ := p
      rw [hg] at hok
      have hcg : cg = c := (inv_getitem c k hInv).1 eg cg hg
      subst cg
      cases eg with
      | keyError =>
        simp at hok
        cases hset : setitem c k d with
        | ok c'' =>
          rw [hset] at hok
          simp at hok
          obtain ⟨hInv', hcap⟩ := (inv_setitem c k d hInv).2 c'' hset
          exact hok.2 ▸ ⟨hInv', hcap⟩
        | error p' =>
          obtain ⟨es, cs⟩ := p'
          rw [hset] at hok
          simp at hok
      | indexError => simp at hok
      | valueError => simp at hok

theorem inv_get (c : Cache K V) (k : K) (d : V) (hInv : Inv c) :
    (∀ e c', get c k d = .error (e, c') → c' = c) ∧
    (∀ v c', get c k d = .ok (v, c') → Inv c' ∧ c'.capacity = c.capacity) := by
  constructor
  · intro e c' hec
    unfold get at hec
    cases hg : getitem c k with
    | ok r => rw [hg] at hec; simp at hec
    | error p =>
      obtain ⟨eg, cg⟩ := p
      rw [hg] at hec
      have hcg : cg = c := (inv_getitem c k hInv).1 eg cg hg
      cases eg with
      | keyError => simp at hec
      | indexError => simp at hec; exact hec.2 ▸ hcg
      | valueError => simp at hec; exact hec.2 ▸ hcg
  · intro v c' hok
    unfold get at hok
    cases hg : getitem c k with
    | ok r =>
      obtain ⟨vg, cg⟩ := r
      rw [hg] at hok
      simp at hok
      obtain ⟨hInv', hcap, _⟩ := (inv_getitem c k hInv).2 vg cg hg
      exact hok.2 ▸ ⟨hInv', hcap⟩
    | error p =>
      obtain ⟨eg, cg⟩ := p
      rw [hg] at hok
      have hcg : cg = c := (inv_getitem c k hInv).1 eg cg hg
      cases eg with
      | keyError =>
        simp at hok
        rcases hok with ⟨hv, hcc⟩
        rw [← hcc, hcg]
        exact ⟨hInv, rfl⟩
      | indexError => simp at hok
      | valueError => simp at hok

theorem inv_applyOp (c : Cache K V) (op : Op K V) (hInv : Inv c) :
    Inv (applyOp c op) ∧ (applyOp c op).capacity = c.capacity := by
  cases op with
  | getOp k =>
    cases hg : getitem c k with
    | ok r =>
      obtain ⟨v, c'⟩ := r
      simp only [applyOp, hg]
      obtain ⟨hInv', hcap, _⟩ := (inv_getitem c k hInv).2 v c' hg
      exact ⟨hInv', hcap⟩
    | error p =>
      obtain ⟨e, c'⟩ := p
      simp only [applyOp, hg]
      rw [(inv_getitem c k hInv).1 e c' hg]
      exact ⟨hInv, rfl⟩
  | getD k d =>
    cases hg : get c k d with
    | ok r =>
      obtain ⟨v, c'⟩ := r
      simp only [applyOp, hg]
      exact (inv_get c k d hInv).2 v c' hg
    | error p =>
      obtain ⟨e, c'⟩ := p
      simp only [applyOp, hg]
      rw [(inv_get c k d hInv).1 e c' hg]
      exact ⟨hInv, rfl⟩
  | setdefaultOp k d =>
    cases hg : setdefault c k d with
    | ok r =>
      obtain ⟨v, c'⟩ := r
      simp only [applyOp, hg]
      exact (inv_setdefault c k d hInv).2 v c' hg
    | error p =>
      obtain ⟨e, c'⟩ := p
      simp only [applyOp, hg]
      exact (inv_setdefault c k d hInv).1 e c' hg
  | setOp k v =>
    cases hg : setitem c k v with
    | ok c' =>
      simp only [applyOp, hg]
      exact (inv_setitem c k v hInv).2 c' hg
    | error p =>
      obtain ⟨e, c'⟩ := p
      simp only [applyOp, hg]
      exact (inv_setitem c k v hInv).1 e c' hg
  | delOp k =>
    cases hg : delitem c k with
    | ok c' =>
      simp only [applyOp, hg]
      exact (inv_delitem c k hInv).2 c' hg
    | error p =>
      obtain ⟨e, c'⟩ := p
      simp only [applyOp, hg]
      rw [(inv_delitem c k hInv).1 e c' hg]
      exact ⟨hInv, rfl⟩
  | clearOp => exact ⟨inv_clear c, rfl⟩
  | copyOp => exact ⟨hInv, rfl⟩
  | itemsOp => exact ⟨hInv, rfl⟩
  | iterOp => exact ⟨hInv, rfl⟩

theorem inv_applySeq (c : Cache K V) (ops : List (Op K V)) (hInv : Inv c) :
    Inv (applySeq c ops) ∧ (applySeq c ops).capacity = c.capacity := by
  induction ops generalizing c with
  | nil => exact ⟨hInv, rfl⟩
  | cons op rest ih =>
    have h1 := inv_applyOp c op hInv
    have h2 := ih (applyOp c op) h1.1
    rw [applySeq, List.foldl_cons]
    exact ⟨h2.1, by rw [applySeq] at h2; rw [h2.2, h1.2]⟩

theorem mapM_lookup (m : List (K × V)) (q : List K)
    (h : ∀ k ∈ q, (dictLookup m k).isSome = true) :
    ∃ l, q.mapM (fun k => (dictLookup m k).map (fun v => (k, v))) = some l ∧
      l.map Prod.fst = q ∧ ∀ p ∈ l, dictLookup m p.1 = some p.2 := by
  induction q with
  | nil => exact ⟨[], rfl, rfl, by simp⟩
  | cons a q ih =>
    have ha := h a (List.mem_cons_self a q)
    obtain ⟨v, hv⟩ := Option.isSome_iff_exists.1 ha
    obtain ⟨l, hl, hfst, hall⟩ := ih (fun k hk => h k (List.mem_cons_of_mem a hk))
    refine ⟨(a, v) :: l, ?_, by simp [hfst], ?_⟩
    · rw [List.mapM_cons, hv, hl]
      rfl
    · intro p hp
      rcases List.mem_cons.1 hp with rfl | hp
      · exact hv
      · exact hall p hp

theorem items_ok (c : Cache K V) (hInv : Inv c) :
    ∃ l : List (K × V), items c = .ok l.reverse ∧ l.map Prod.fst = c.queue ∧
      ∀ p ∈ l, dictLookup c.mapping p.1 = some p.2 := by
  obtain ⟨l, hl, hfst, hall⟩ := mapM_lookup c.mapping c.queue (fun k hk =>
    (dictLookup_isSome c.mapping k).2 ((hInv.2.2.1 k).2 hk))
  exact ⟨l, by rw [items, hl], hfst, hall⟩

/-- C1: `set(key, value)` on a consistent cache with positive capacity
never raises; if the key is present its value is replaced, the key is
moved to the back of the queue and the key set is unchanged (no
eviction); if the key is absent at capacity, the front of the queue is
evicted from dict and queue before the new entry is appended; if the key
is absent below capacity, the entry is appended directly. (The original
claim's "for every cache state ... set never raises" fails at capacity
zero, see the counterexample; it holds for every invariant-satisfying
state of positive capacity.) -/
theorem C1_set_behaviour (c : Cache K V) (k : K) (v : V)
    (hInv : Inv c) (hpos : 0 < c.capacity) :
    (∃ c', setitem c k v = .ok c' ∧ c'.capacity = c.capacity) ∧
    (∀ v0, dictLookup c.mapping k = some v0 →
      setitem c k v = .ok { c with mapping := dictInsert c.mapping k v,
                                   queue := c.queue.erase k ++ [k] } ∧
      (dictInsert c.mapping k v).map Prod.fst = c.mapping.map Prod.fst ∧
      dictLookup (dictInsert c.mapping k v) k = some v) ∧
    (dictLookup c.mapping k = none → c.mapping.length = c.capacity →
      ∃ front rest, c.queue = front :: rest ∧
        setitem c k v = .ok { c with
          mapping := dictInsert (dictErase c.mapping front) k v,
          queue := rest ++ [k] }) ∧
    (dictLookup c.mapping k = none → c.mapping.length < c.capacity →
      setitem c k v = .ok { c with mapping := c.mapping ++ [(k, v)],
                                   queue := c.queue ++ [k] }) := by
  refine ⟨?_, ?_, ?_, ?_⟩
  · cases hm : dictLookup c.mapping k with
    | some v0 =>
      refine ⟨_, setitem_present c k v v0 hInv hm, rfl⟩
    | none =>
      by_cases hfull : c.mapping.length = c.capacity
      · obtain ⟨front, rest, hq, hset⟩ :=
          setitem_absent_full c k v hInv hm hfull hpos
        exact ⟨_, hset, rfl⟩
      · exact ⟨_, setitem_absent_notfull c k v hm hfull, rfl⟩
  · intro v0 hm
    refine ⟨setitem_present c k v v0 hInv hm, ?_, dictLookup_dictInsert_self _ _ _⟩
    exact map_fst_dictInsert_of_mem c.mapping k v (by
      rw [← dictLookup_isSome c.mapping k, hm]; rfl)
  · intro hm hfull
    exact setitem_absent_full c k v hInv hm hfull hpos
  · intro hm hlt
    exact setitem_absent_notfull c k v hm (Nat.ne_of_lt hlt)

/-- C1 counterexample: on a cache of capacity 0 (necessarily empty),
`set` raises `IndexError` from popping the empty queue — so "set never
raises" is false as stated over all cache states. -/
theorem C1_counterexample :
    setitem (init 0 : Cache Nat Nat) 0 0 = .error (.indexError, init 0) := rfl

/-- C1 witness: a concrete application of the amended claim. -/
theorem C1_set_behaviour_witness :
    Inv (⟨2, [(0, 5)], [0]⟩ : Cache Nat Nat) ∧
    0 < 2 ∧
    setitem (⟨2, [(0, 5)], [0]⟩ : Cache Nat Nat) 1 7 =
      .ok ⟨2, [(0, 5), (1, 7)], [0, 1]⟩ := by
  have hInv : Inv (⟨2, [(0, 5)], [0]⟩ : Cache Nat Nat) :=
    ⟨by decide, by decide, fun k => Iff.rfl, by decide⟩
  refine ⟨hInv, by decide, ?_⟩
  have h := (C1_set_behaviour (⟨2, [(0, 5)], [0]⟩ : Cache Nat Nat) 1 7 hInv
    (by decide)).2.2.2 rfl (by decide)
  exact h

/-- C10: on a cache of capacity 0 satisfying the invariant (hence empty),
`set` raises `IndexError` from `popleft` on the empty queue and leaves
the cache unchanged, so both invariants still hold after the failed
call. -/
theorem C10_capacity_zero_set (c : Cache K V) (k : K) (v : V)
    (hInv : Inv c) (hcap : c.capacity = 0) :
    setitem c k v = .error (.indexError, c) ∧
    c.mapping = [] ∧ c.queue = [] ∧
    applyOp c (.setOp k v) = c ∧ Inv (applyOp c (.setOp k v)) := by
  obtain ⟨herr, hm, hq⟩ := setitem_capacity_zero c k v hInv hcap
  have happ : applyOp c (.setOp k v) = c := by
    simp only [applyOp, herr]
  refine ⟨herr, hm, hq, happ, ?_⟩
  rw [happ]
  exact hInv

/-- C10 witness: the capacity-0 behaviour at a concrete input. -/
theorem C10_capacity_zero_set_witness :
    Inv (init 0 : Cache Nat Nat) ∧ (init 0 : Cache Nat Nat).capacity = 0 ∧
    setitem (init 0 : Cache Nat Nat) 3 9 = .error (.indexError, init 0) := by
  have hInv : Inv (init 0 : Cache Nat Nat) :=
    ⟨by decide, by decide, fun k => Iff.rfl, by decide⟩
  exact ⟨hInv, rfl, (C10_capacity_zero_set (init 0) 3 9 hInv rfl).1⟩

/-- C2: after any finite sequence of completed operations on a cache
constructed with positive capacity, the key set of the store equals the
set of keys in the queue, the queue has no duplicates, the queue length
equals the store size, and the store size is at most the capacity. -/
theorem C2_invariants_hold (n : Nat) (hn : 0 < n) (ops : List (Op K V)) :
    (∀ k, k ∈ (applySeq (init n) ops).mapping.map Prod.fst ↔
      k ∈ (applySeq (init n) ops).queue) ∧
    (applySeq (init n) ops).queue.Nodup ∧
    (applySeq (init n) ops).queue.length = size (applySeq (init n) ops) ∧
    size (applySeq (init n) ops) ≤ n := by
  obtain ⟨hInv, hcap⟩ := inv_applySeq (init n : Cache K V) ops (inv_init n)
  refine ⟨hInv.2.2.1, hInv.2.1, inv_queue_length _ hInv, ?_⟩
  have := hInv.2.2.2
  rw [size]
  rw [hcap] at this
  exact this

/-- C2 witness: a concrete run (set, set, get, set with eviction, delete,
setdefault) on a capacity-2 cache. -/
theorem C2_invariants_hold_witness :
    0 < 2 ∧
    ((∀ k, k ∈ (applySeq (init 2) [Op.setOp 0 1, Op.setOp 1 2, Op.getOp 0,
        Op.setOp 2 3, Op.delOp 2, Op.setdefaultOp 5 9]).mapping.map Prod.fst ↔
      k ∈ (applySeq (init 2) [Op.setOp 0 1, Op.setOp 1 2, Op.getOp 0,
        Op.setOp 2 3, Op.delOp 2, Op.setdefaultOp 5 9]).queue) ∧
    (applySeq (init 2) [Op.setOp 0 1, Op.setOp 1 2, Op.getOp 0,
        Op.setOp 2 3, Op.delOp 2, Op.setdefaultOp 5 9]).queue.Nodup ∧
    (applySeq (init 2) [Op.setOp 0 1, Op.setOp 1 2, Op.getOp 0,
        Op.setOp 2 3, Op.delOp 2, Op.setdefaultOp 5 9]).queue.length =
      size (applySeq (init 2 : Cache Nat Nat) [Op.setOp 0 1, Op.setOp 1 2, Op.getOp 0,
        Op.setOp 2 3, Op.delOp 2, Op.setdefaultOp 5 9]) ∧
    size (applySeq (init 2 : Cache Nat Nat) [Op.setOp 0 1, Op.setOp 1 2, Op.getOp 0,
        Op.setOp 2 3, Op.delOp 2, Op.setdefaultOp 5 9]) ≤ 2) :=
  ⟨by decide, C2_invariants_hold 2 (by decide) _⟩

/-- C3 counterexample: with `queue = [a, b]` and `a` present,
`setdefault(a, 99)` returns the stored value but reorders the queue to
`[b, a]` — the cache is not left unchanged, and the recency of `a` is
promoted, contrary to the claim. -/
theorem C3_counterexample :
    setdefault (⟨2, [(0, 10), (1, 11)], [0, 1]⟩ : Cache Nat Nat) 0 99 =
      .ok (10, ⟨2, [(0, 10), (1, 11)], [1, 0]⟩) ∧
    (⟨2, [(0, 10), (1, 11)], [1, 0]⟩ : Cache Nat Nat) ≠
      ⟨2, [(0, 10), (1, 11)], [0, 1]⟩ :=
  ⟨rfl, by decide⟩

/-- C3 (amended): on a consistent cache, `setdefault(key, default)` with
`key` present returns the existing value and leaves the store untouched,
but promotes the key's recency exactly as `get` does (it delegates to
`__getitem__`): the state is unchanged only when the key is already the
most recently used; with `key` absent it performs `set(key, default)`
and returns `default`. -/
theorem C3_setdefault_behaviour (c : Cache K V) (k : K) (d : V) (hInv : Inv c) :
    (∀ v, dictLookup c.mapping k = some v →
      ∃ c', setdefault c k d = .ok (v, c') ∧ c'.mapping = c.mapping ∧
        c'.capacity = c.capacity ∧
        (c.queue.getLast? = some k → c' = c) ∧
        (c.queue.getLast? ≠ some k → c'.queue = c.queue.erase k ++ [k])) ∧
    (dictLookup c.mapping k = none →
      (∀ c', setitem c k d = .ok c' → setdefault c k d = .ok (d, c')) ∧
      (∀ e, setitem c k d = .error e → setdefault c k d = .error e)) := by
  constructor
  · intro v hv
    obtain ⟨hlast, hnotlast⟩ := getitem_present c k v hInv hv
    by_cases hl : c.queue.getLast? = some k
    · refine ⟨c, ?_, rfl, rfl, fun _ => rfl, fun hn => absurd hl hn⟩
      rw [setdefault, hlast hl]
    · refine ⟨{ c with queue := c.queue.erase k ++ [k] }, ?_, rfl, rfl,
        fun hk => absurd hk hl, fun _ => rfl⟩
      rw [setdefault, hnotlast hl]
  · intro hv
    have hget : getitem c k = .error (.keyError, c) := getitem_absent c k hv
    have hstep : setdefault c k d =
        match setitem c k d with
        | .ok c'' => Except.ok (d, c'')
        | .error e => Except.error e := by
      rw [setdefault, hget]
    constructor
    · intro c' hset
      rw [hstep, hset]
    · intro e hset
      rw [hstep, hset]

/-- C3 witness: key 0 present but not most recent — `setdefault`
promotes it. -/
theorem C3_setdefault_behaviour_witness :
    Inv (⟨2, [(0, 10), (1, 11)], [0, 1]⟩ : Cache Nat Nat) ∧
    dictLookup ([(0, 10), (1, 11)] : List (Nat × Nat)) 0 = some 10 ∧
    ∃ c', setdefault (⟨2, [(0, 10), (1, 11)], [0, 1]⟩ : Cache Nat Nat) 0 99 =
      .ok (10, c') ∧ c'.mapping = [(0, 10), (1, 11)] ∧ c'.capacity = 2 ∧
      (([0, 1] : List Nat).getLast? = some 0 → c' = ⟨2, [(0, 10), (1, 11)], [0, 1]⟩) ∧
      (([0, 1] : List Nat).getLast? ≠ some 0 →
        c'.queue = ([0, 1] : List Nat).erase 0 ++ [0]) := by
  have hInv : Inv (⟨2, [(0, 10), (1, 11)], [0, 1]⟩ : Cache Nat Nat) :=
    ⟨by decide, by decide, fun k => by simp [List.mem_cons], by decide⟩
  exact ⟨hInv, rfl,
    (C3_setdefault_behaviour (⟨2, [(0, 10), (1, 11)], [0, 1]⟩ : Cache Nat Nat)
      0 99 hInv).1 10 rfl⟩

/-- C4: on a consistent cache, `get` (`__getitem__`) raises `KeyError`
exactly when the key is absent; on success it returns the stored value
and moves the key to the back of the queue. The `get`-with-default
variant never raises: when the key is absent it returns the default and
changes nothing, and when the key is present it behaves exactly as
`__getitem__`. -/
theorem C4_get_and_default (c : Cache K V) (k : K) (d : V) (hInv : Inv c) :
    (contains c k = false →
      getitem c k = .error (.keyError, c) ∧ get c k d = .ok (d, c)) ∧
    (contains c k = true →
      ∃ v c', dictLookup c.mapping k = some v ∧
        getitem c k = .ok (v, c') ∧ get c k d = .ok (v, c') ∧
        c'.mapping = c.mapping ∧ c'.capacity = c.capacity ∧
        c'.queue.getLast? = some k) := by
  constructor
  · intro habs
    have hm : dictLookup c.mapping k = none := by
      rw [contains] at habs
      cases hmm : dictLookup c.mapping k with
      | none => rfl
      | some v => rw [hmm] at habs; simp at habs
    have hget := getitem_absent c k hm
    refine ⟨hget, ?_⟩
    rw [get, hget]
  · intro hpres
    rw [contains] at hpres
    obtain ⟨v, hv⟩ := Option.isSome_iff_exists.1 hpres
    obtain ⟨hlast, hnotlast⟩ := getitem_present c k v hInv hv
    by_cases hl : c.queue.getLast? = some k
    · refine ⟨v, c, hv, hlast hl, ?_, rfl, rfl, hl⟩
      rw [get, hlast hl]
    · refine ⟨v, { c with queue := c.queue.erase k ++ [k] }, hv, hnotlast hl, ?_,
        rfl, rfl, ?_⟩
      · rw [get, hnotlast hl]
      · exact List.getLast?_concat _

/-- C4 witness: present key 0 (promoted) and absent key 5 (default
returned, no change) on a concrete cache. -/
theorem C4_get_and_default_witness :
    Inv (⟨2, [(0, 10), (1, 11)], [0, 1]⟩ : Cache Nat Nat) ∧
    contains (⟨2, [(0, 10), (1, 11)], [0, 1]⟩ : Cache Nat Nat) 5 = false ∧
    getitem (⟨2, [(0, 10), (1, 11)], [0, 1]⟩ : Cache Nat Nat) 5 =
      .error (.keyError, ⟨2, [(0, 10), (1, 11)], [0, 1]⟩) ∧
    get (⟨2, [(0, 10), (1, 11)], [0, 1]⟩ : Cache Nat Nat) 5 77 =
      .ok (77, ⟨2, [(0, 10), (1, 11)], [0, 1]⟩) := by
  have hInv : Inv (⟨2, [(0, 10), (1, 11)], [0, 1]⟩ : Cache Nat Nat) :=
    ⟨by decide, by decide, fun k => by simp [List.mem_cons], by decide⟩
  have h := (C4_get_and_default (⟨2, [(0, 10), (1, 11)], [0, 1]⟩ : Cache Nat Nat)
    5 77 hInv).1 rfl
  exact ⟨hInv, rfl, h.1, h.2⟩

/-- C5: on a consistent cache, `delete` and `get` on an absent key raise
`KeyError` with the state exactly as before — no partial mutation; on a
present key, `delete` removes it from both store and queue, after which
`contains` is false and a second `delete` raises `KeyError`. -/
theorem C5_delete_behaviour (c : Cache K V) (k : K) (hInv : Inv c) :
    (contains c k = false →
      delitem c k = .error (.keyError, c) ∧
      getitem c k = .error (.keyError, c)) ∧
    (contains c k = true →
      ∃ c', delitem c k = .ok c' ∧
        c'.mapping.map Prod.fst = (c.mapping.map Prod.fst).erase k ∧
        c'.queue = c.queue.erase k ∧
        contains c' k = false ∧
        delitem c' k = .error (.keyError, c')) := by
  constructor
  · intro habs
    have hm : dictLookup c.mapping k = none := by
      rw [contains] at habs
      cases hmm : dictLookup c.mapping k with
      | none => rfl
      | some v => rw [hmm] at habs; simp at habs
    exact ⟨delitem_absent c k hm, getitem_absent c k hm⟩
  · intro hpres
    rw [contains] at hpres
    obtain ⟨v, hv⟩ := Option.isSome_iff_exists.1 hpres
    have hdel := delitem_present c k v hv
    have hnone : dictLookup (dictErase c.mapping k) k = none :=
      dictLookup_dictErase_self c.mapping k hInv.1
    refine ⟨_, hdel, map_fst_dictErase c.mapping k, rfl, ?_, ?_⟩
    · rw [contains]
      show (dictLookup (dictErase c.mapping k) k).isSome = false
      rw [hnone]
      rfl
    · exact delitem_absent _ k hnone

/-- C5 witness: delete present key 1, then the second delete fails. -/
theorem C5_delete_behaviour_witness :
    Inv (⟨2, [(0, 10), (1, 11)], [0, 1]⟩ : Cache Nat Nat) ∧
    contains (⟨2, [(0, 10), (1, 11)], [0, 1]⟩ : Cache Nat Nat) 1 = true ∧
    ∃ c', delitem (⟨2, [(0, 10), (1, 11)], [0, 1]⟩ : Cache Nat Nat) 1 = .ok c' ∧
      c'.mapping.map Prod.fst = ([0, 1] : List Nat).erase 1 ∧
      c'.queue = ([0, 1] : List Nat).erase 1 ∧
      contains c' 1 = false ∧
      delitem c' 1 = .error (.keyError, c') := by
  have hInv : Inv (⟨2, [(0, 10), (1, 11)], [0, 1]⟩ : Cache Nat Nat) :=
    ⟨by decide, by decide, fun k => by simp [List.mem_cons], by decide⟩
  exact ⟨hInv, rfl,
    (C5_delete_behaviour (⟨2, [(0, 10), (1, 11)], [0, 1]⟩ : Cache Nat Nat)
      1 hInv).2 rfl⟩

/-- C6: on a consistent cache, `items()` succeeds and returns the
(key, value) pairs in exactly the reverse of the internal queue order
(most-recently-used first), with each pair carrying the stored value;
default iteration is the reversed queue, `reversed` iteration is the raw
queue, and `keys()`/`values()` are derived from the same orderings. -/
theorem C6_iteration_order (c : Cache K V) (hInv : Inv c) :
    (∃ l : List (K × V), items c = .ok l ∧ l.map Prod.fst = c.queue.reverse ∧
      (∀ p ∈ l, dictLookup c.mapping p.1 = some p.2) ∧
      valuesList c = .ok (l.map Prod.snd)) ∧
    iterList c = c.queue.reverse ∧
    reversedList c = c.queue ∧
    keysList c = iterList c := by
  obtain ⟨l, hl, hfst, hall⟩ := items_ok c hInv
  refine ⟨⟨l.reverse, hl, ?_, ?_, ?_⟩, rfl, rfl, rfl⟩
  · rw [List.map_reverse, hfst]
  · intro p hp
    exact hall p (List.mem_reverse.1 hp)
  · rw [valuesList, hl]

/-- C6 witness: iteration orders on a concrete two-entry cache. -/
theorem C6_iteration_order_witness :
    Inv (⟨2, [(0, 10), (1, 11)], [0, 1]⟩ : Cache Nat Nat) ∧
    ∃ l : List (Nat × Nat),
      items (⟨2, [(0, 10), (1, 11)], [0, 1]⟩ : Cache Nat Nat) = .ok l ∧
      l.map Prod.fst = ([0, 1] : List Nat).reverse := by
  have hInv : Inv (⟨2, [(0, 10), (1, 11)], [0, 1]⟩ : Cache Nat Nat) :=
    ⟨by decide, by decide, fun k => by simp [List.mem_cons], by decide⟩
  obtain ⟨⟨l, hl, hfst, _, _⟩, _⟩ :=
    C6_iteration_order (⟨2, [(0, 10), (1, 11)], [0, 1]⟩ : Cache Nat Nat) hInv
  exact ⟨hInv, l, hl, hfst⟩

theorem applyWorld_components (w : Cache K V × Cache K V)
    (ops : List (Bool × Op K V)) :
    (applyWorld w ops).1 = applySeq w.1 (opsFor true ops) ∧
    (applyWorld w ops).2 = applySeq w.2 (opsFor false ops) := by
  induction ops generalizing w with
  | nil => exact ⟨rfl, rfl⟩
  | cons a ops ih =>
    obtain ⟨b, op⟩ := a
    have hstep := ih (applyWorldStep w (b, op))
    cases b with
    | true =>
      refine ⟨?_, ?_⟩
      · rw [applyWorld, List.foldl_cons, ← applyWorld]
        rw [hstep.1]
        simp [applyWorldStep, opsFor, applySeq]
      · rw [applyWorld, List.foldl_cons, ← applyWorld]
        rw [hstep.2]
        simp [applyWorldStep, opsFor, applySeq]
    | false =>
      refine ⟨?_, ?_⟩
      · rw [applyWorld, List.foldl_cons, ← applyWorld]
        rw [hstep.1]
        simp [applyWorldStep, opsFor, applySeq]
      · rw [applyWorld, List.foldl_cons, ← applyWorld]
        rw [hstep.2]
        simp [applyWorldStep, opsFor, applySeq]

/-- C7: `copy()` returns a cache with the same capacity, store contents
and queue order; and in the two-instance world the instances are
independent: running any tagged operation sequence, the final state of
the original is exactly the original run under its own operations, and
likewise for the copy — operations on one are never observable in the
other. -/
theorem C7_copy_independence (c : Cache K V) (ops : List (Bool × Op K V)) :
    (copy c).capacity = c.capacity ∧
    (copy c).mapping = c.mapping ∧
    (copy c).queue = c.queue ∧
    (applyWorld (c, copy c) ops).1 = applySeq c (opsFor true ops) ∧
    (applyWorld (c, copy c) ops).2 = applySeq (copy c) (opsFor false ops) := by
  obtain ⟨h1, h2⟩ := applyWorld_components (c, copy c) ops
  exact ⟨rfl, rfl, rfl, h1, h2⟩

/-- C8: pickling round-trip. `__getstate__` persists exactly
`capacity`, `_mapping` and `_queue` (no lock), and `__setstate__` of that
snapshot reproduces a cache observably identical to the original —
same state, `items()`, both iteration orders, size and membership —
while `_postinit` installs a freshly allocated lock, distinct from the
original instance's lock. -/
theorem C8_pickle_roundtrip (cw : CacheWithLock K V) (freshLock : Nat)
    (hfresh : freshLock ≠ cw.lockId) :
    (setstateL (getstateL cw) freshLock).data = cw.data ∧
    setstate (getstate cw.data) = cw.data ∧
    items (setstate (getstate cw.data)) = items cw.data ∧
    iterList (setstate (getstate cw.data)) = iterList cw.data ∧
    reversedList (setstate (getstate cw.data)) = reversedList cw.data ∧
    size (setstate (getstate cw.data)) = size cw.data ∧
    (∀ k, contains (setstate (getstate cw.data)) k = contains cw.data k) ∧
    (getstateL cw).capacity = cw.data.capacity ∧
    (getstateL cw).queue = cw.data.queue ∧
    (getstateL cw).mapping = cw.data.mapping ∧
    (setstateL (getstateL cw) freshLock).lockId ≠ cw.lockId := by
  exact ⟨rfl, rfl, rfl, rfl, rfl, rfl, fun k => rfl, rfl, rfl, rfl, hfresh⟩

/-- C8 witness: round-trip at a concrete cache with lock id 0 and fresh
lock id 1. -/
theorem C8_pickle_roundtrip_witness :
    (1 : Nat) ≠ 0 ∧
    (setstateL (getstateL (⟨⟨2, [(0, 10), (1, 11)], [0, 1]⟩, 0⟩ :
      CacheWithLock Nat Nat)) 1).data = ⟨2, [(0, 10), (1, 11)], [0, 1]⟩ :=
  ⟨by decide,
    (C8_pickle_roundtrip (⟨⟨2, [(0, 10), (1, 11)], [0, 1]⟩, 0⟩ :
      CacheWithLock Nat Nat) 1 (by decide)).1⟩

/-- C9 counterexample: `items`, `__iter__` and `__getstate__` perform no
lock operation at all, and `setdefault` on an absent key releases the
guard between its two guarded sections — so the guard is not held for
the full duration of items/iteration/snapshot calls, contrary to the
claim. -/
theorem C9_counterexample :
    heldFullDuration itemsLock = false ∧
    heldFullDuration iterLock = false ∧
    heldFullDuration getstateLock = false ∧
    itemsLock = [] ∧ iterLock = [] ∧ getstateLock = [] ∧
    heldFullDuration (setdefaultLock false) = false := by
  decide

/-- C9 (amended): the guard is held for the full duration of
`__getitem__` (hence `get`), `__setitem__`, `__delitem__` and `clear`;
`setdefault` holds it for each of its constituent guarded operations but
releases it in between when the key is absent; it is not acquired by
`contains` and `size`, and also not by `items`, iteration, reversed
iteration, `__getstate__` or `copy`; and `contains` is a pure membership
test on the store that never touches the queue. -/
theorem C9_lock_discipline :
    heldFullDuration getitemLock = true ∧
    heldFullDuration getLock = true ∧
    heldFullDuration setitemLock = true ∧
    heldFullDuration delitemLock = true ∧
    heldFullDuration clearLock = true ∧
    setdefaultLock true = [.acquire, .release] ∧
    setdefaultLock false = [.acquire, .release, .acquire, .release] ∧
    containsLock = [] ∧ sizeLock = [] ∧ itemsLock = [] ∧ iterLock = [] ∧
    reversedLock = [] ∧ getstateLock = [] ∧ copyLock = [] ∧
    (∀ (c : Cache K V) (k : K), contains c k = (dictLookup c.mapping k).isSome) := by
  refine ⟨rfl, rfl, rfl, rfl, rfl, rfl, rfl, rfl, rfl, rfl, rfl, rfl, rfl, rfl,
    fun c k => rfl⟩

end JinjaLRU
